import Mathlib

/-!
Verification of the text-augmentation and data-retrieval pipeline of
`run_xlm_roberta.py` (multilingual toxic-comment classification script).

The development shallowly embeds the pure core of the script:

* the regex-based text cleaning (`clean_text`, `exclude_duplicate_sentences`),
  with Python's `re.sub` semantics for the patterns `[0-9"]`, `#[\S]+\b`,
  `@[\S]+\b`, `https?\S+` and `\s+` reproduced as executable scanners over
  `List Char` (ASCII fragment of the `\s` / `\w` classes);
* the tokenization call (`DatasetRetriever.get_tokens`), with the external
  `transformers` tokenizer modelled by its documented contract
  (`add_special_tokens=True`, truncation and padding to `max_length`);
* the training-time sample fetch (`DatasetRetriever.__getitem__`);
* the synthetic sample mixer (`SynthesicOpenSubtitlesTransform`);
* the rolling ROC-AUC meter (`RocAucMeter`) and the loss meter;
* the checkpoint-on-improvement policy of `TPUFitter.fit` and the
  low-positive-batch skip of `TPUFitter.train_one_epoch`.

External collaborators (the `nltk` sentence splitter, the subword piece
tokenizer, the classifier, the AUC scoring function, softmax, the random
number generator) are taken as explicit parameters of the embedded
functions, so every theorem quantifies over their behaviour or pins it
down by an explicit hypothesis.
-/

/-- Python's whitespace class `\s` (and `str.isspace`) restricted to the
ASCII range: space, tab, newline, vertical tab, form feed, carriage return. -/
def pySpace (c : Char) : Bool :=
  c = ' ' || c = '\t' || c = '\n' || c = '\x0b' || c = '\x0c' || c = '\r'

/-- Python's word-character class `\w` restricted to the ASCII range:
letters, digits and underscore.  Used by the `\b` word-boundary assertion. -/
def pyWord (c : Char) : Bool :=
  c.isAlphanum || c = '_'

/-- Mirrors `re.sub(r'[0-9"]', '', text)` from `clean_text`: delete every decimal
digit and double-quote character. -/
def removeDigitsQuotes (l : List Char) : List Char :=
  l.filter (fun c => !(c.isDigit || c = '"'))

/-- Word-boundary test for the regex `\b` placed right after the `k`-th
character (1-based) of the non-whitespace run `run`.  The character after
the run, when the boundary sits at the end of the run, is whitespace or
end-of-string, both non-word. -/
def boundAfter (run : List Char) (k : Nat) : Bool :=
  match run.drop (k - 1) with
  | [] => false
  | a :: [] => pyWord a
  | a :: b :: _ => pyWord a != pyWord b

/-- Length matched by `[\S]+\b` against the maximal non-whitespace run
`run`: the regex engine's greedy `[\S]+` followed by backtracking for `\b`
yields the largest `k ≥ 1` with a word boundary right after position `k`;
`none` when no such position exists (no match). -/
def tokenMatchLen (run : List Char) : Option Nat :=
  (List.range run.length).foldl
    (fun acc i => if boundAfter run (i + 1) then some (i + 1) else acc) none

/-- Fuelled scanner for one `re.sub(r'm[\S]+\b', '', text)` pass with marker
character `m` (`'#'` for hashtags, `'@'` for mentions): leftmost
non-overlapping matches are deleted and scanning resumes right after each
deleted match (Python's `re.sub` does not rescan the junction). -/
def subTokenPatAux (m : Char) : Nat → List Char → List Char
  | 0, l => l
  | _ + 1, [] => []
  | fuel + 1, c :: rest =>
    if c = m then
      match tokenMatchLen (rest.takeWhile (fun d => !pySpace d)) with
      | some k => subTokenPatAux m fuel (rest.drop k)
      | none => c :: subTokenPatAux m fuel rest
    else c :: subTokenPatAux m fuel rest

/-- One pass of `re.sub` for the pattern `m[\S]+\b`. -/
def subTokenPat (m : Char) (l : List Char) : List Char :=
  subTokenPatAux m l.length l

/-- Does the list start with the literal characters `http`? -/
def startsHttp (l : List Char) : Bool :=
  decide (l.take 4 = ['h', 't', 't', 'p'])

/-- Fuelled scanner for `re.sub(r'https?\S+', '', text)`: at a literal
`http`, the greedy `s?` and `\S+` always swallow the whole remaining
non-whitespace run, and the match succeeds exactly when that run is
nonempty (so the matched text is `http` plus the run); otherwise scanning
advances one character. -/
def subUrlAux : Nat → List Char → List Char
  | 0, l => l
  | _ + 1, [] => []
  | fuel + 1, c :: rest =>
    if startsHttp (c :: rest) then
      if (((c :: rest).drop 4).takeWhile (fun d => !pySpace d)).isEmpty then
        c :: subUrlAux fuel rest
      else
        subUrlAux fuel
          (((c :: rest).drop 4).drop
            (((c :: rest).drop 4).takeWhile (fun d => !pySpace d)).length)
    else c :: subUrlAux fuel rest

/-- One pass of `re.sub(r'https?\S+', '', text)`. -/
def subUrl (l : List Char) : List Char :=
  subUrlAux l.length l

/-- Fuelled scanner for `re.sub(r'\s+', ' ', text)`: every maximal
whitespace run collapses to a single space. -/
def collapseWsAux : Nat → List Char → List Char
  | 0, l => l
  | _ + 1, [] => []
  | fuel + 1, c :: rest =>
    if pySpace c then ' ' :: collapseWsAux fuel (rest.dropWhile pySpace)
    else c :: collapseWsAux fuel rest

/-- One pass of `re.sub(r'\s+', ' ', text)`. -/
def collapseWs (l : List Char) : List Char :=
  collapseWsAux l.length l

/-- The four regex substitutions of `clean_text`, in source order:
digits and quotes, hashtags, mentions, URLs, then whitespace collapse. -/
def preClean (l : List Char) : List Char :=
  collapseWs (subUrl (subTokenPat '@' (subTokenPat '#' (removeDigitsQuotes l))))

/-- Python `str.strip()` (ASCII fragment): drop leading and trailing
whitespace. -/
def pyStrip (l : List Char) : List Char :=
  ((l.dropWhile pySpace).reverse.dropWhile pySpace).reverse

/-- Python `str.strip()` lifted to `String`. -/
def pyStripStr (s : String) : String :=
  String.mk (pyStrip s.data)

/-- Python `' '.join(fragments)`. -/
def joinSp : List String → String
  | [] => ""
  | [s] => s
  | s :: rest => s ++ " " ++ joinSp rest

/-- The `LANGS` lookup table mapping 2-letter language codes to the
sentence-splitter language names. -/
def LANGS : List (String × String) :=
  [("en", "english"), ("it", "italian"), ("fr", "french"), ("es", "spanish"),
   ("tr", "turkish"), ("ru", "english"), ("pt", "english")]

/-- Mirrors `LANGS.get(lang, 'english')`. -/
def langLookup (lang : String) : String :=
  ((LANGS.find? (fun p => p.1 = lang)).map Prod.snd).getD "english"

/-- Mirrors `get_sentences(text, lang)`: `sent_tokenize(text, LANGS.get(lang, 'english'))`.
The external `nltk` splitter is the parameter `split` (text and resolved
language name to sentence list). -/
def get_sentences (split : String → String → List String) (text lang : String) :
    List String :=
  split text (langLookup lang)

/-- The accumulation loop of `exclude_duplicate_sentences`: strip each
sentence and append it unless an earlier sentence stripped to the same
string. -/
def dedupLoop (acc : List String) : List String → List String
  | [] => acc
  | s :: rest =>
    if pyStripStr s ∈ acc then dedupLoop acc rest
    else dedupLoop (acc ++ [pyStripStr s]) rest

/-- Mirrors `exclude_duplicate_sentences(text, lang)` from `run_xlm_roberta.py`. -/
def exclude_duplicate_sentences (split : String → String → List String)
    (text lang : String) : String :=
  joinSp (dedupLoop [] (get_sentences split text lang))

/-- Mirrors `clean_text(text, lang)` from `run_xlm_roberta.py`: the four regex
substitutions and the whitespace collapse, then duplicate-sentence
removal, then a final `strip()`. -/
def clean_text (split : String → String → List String) (text lang : String) :
    String :=
  pyStripStr
    (exclude_duplicate_sentences split (String.mk (preClean text.data)) lang)

/-! ## Tokenization and sample fetch (`DatasetRetriever`) -/

/-- The constant `MAX_LENGTH = 224` from `run_xlm_roberta.py`. -/
def MAX_LENGTH : Nat := 224

/-- The XLM-RoBERTa tokenizer's beginning-of-sequence token id (`<s>`). -/
def bos_token_id : Nat := 0

/-- The XLM-RoBERTa tokenizer's padding token id (`<pad>`). -/
def pad_token_id : Nat := 1

/-- The XLM-RoBERTa tokenizer's end-of-sequence token id (`</s>`). -/
def eos_token_id : Nat := 2

/-- Model of the external `tokenizer.encode_plus(text, add_special_tokens=True,
max_length=MAX_LENGTH, pad_to_max_length=True)` call of
`DatasetRetriever.get_tokens`, per the `transformers` library's documented
contract: the subword pieces of the text are truncated to `MAX_LENGTH - 2`,
wrapped in the two special tokens `<s>` and `</s>`, and the result is padded
with `<pad>` (attention mask `0`) up to `MAX_LENGTH`; every non-padding
token, special tokens included, carries attention mask `1`.  The subword
piece computation itself is the explicit parameter `pieces`. -/
def encode_plus (pieces : List Nat) : List Nat × List Nat :=
  let core := bos_token_id :: (pieces.take (MAX_LENGTH - 2) ++ [eos_token_id])
  (core ++ List.replicate (MAX_LENGTH - core.length) pad_token_id,
   List.replicate core.length 1 ++ List.replicate (MAX_LENGTH - core.length) 0)

/-- Mirrors `DatasetRetriever.get_tokens(text)`: tokenize `text` and return the
`(input_ids, attention_mask)` pair. -/
def get_tokens (pieces : String → List Nat) (text : String) :
    List Nat × List Nat :=
  encode_plus (pieces text)

/-- Result of one `DatasetRetriever.__getitem__` call in training mode, with
an explicit record of whether the synthetic-mixer transform was invoked. -/
structure ItemOutput where
  target : Nat
  token_ids : List Nat
  attention_mask : List Nat
  mixerInvoked : Bool
deriving DecidableEq

/-- Mirrors `DatasetRetriever.__getitem__` with `use_train_transforms=True`:
augment the text, tokenize it, and when the attention-mask sum (the count
of non-padding tokens) is below `60` run the synthetic-mixer transform on
the augmented text and its label and re-tokenize the transform's output;
otherwise return the first tokenization unchanged.  `augment` models the
`train_transforms` albumentations chain and `synth` the
`synthesic_transforms` call (each with its internal randomness). -/
def getitem_train (pieces : String → List Nat)
    (augment : String → String → String) (synth : String → Nat → String)
    (text lang : String) (label : Nat) : ItemOutput :=
  let text1 := augment text lang
  let first := get_tokens pieces text1
  if first.2.sum < 60 then
    let text2 := synth text1 label
    let second := get_tokens pieces text2
    ⟨label, second.1, second.2, true⟩
  else
    ⟨label, first.1, first.2, false⟩

/-- Mirrors `DatasetRetriever.__getitem__` with `use_train_transforms=False`
(validation and test): tokenize the stored text directly. -/
def getitem_eval (pieces : String → List Nat) (text : String)
    (label_or_id : Nat) : ItemOutput :=
  ⟨label_or_id, (get_tokens pieces text).1, (get_tokens pieces text).2, false⟩


theorem get_tokens_length (pieces : String → List Nat) (text : String) :
    (get_tokens pieces text).1.length = MAX_LENGTH
    ∧ (get_tokens pieces text).2.length = MAX_LENGTH := by
  have h : (bos_token_id ::
      ((pieces text).take (MAX_LENGTH - 2) ++ [eos_token_id])).length
      ≤ MAX_LENGTH := by
    have h1 : ((pieces text).take (MAX_LENGTH - 2)).length ≤ MAX_LENGTH - 2 := by
      rw [List.length_take]
      exact Nat.min_le_left _ _
    simp only [List.length_cons, List.length_append, List.length_singleton,
      List.length_nil, MAX_LENGTH] at h1 ⊢
    omega
  constructor <;>
    simp only [get_tokens, encode_plus, List.length_append,
      List.length_replicate] <;>
    omega

/-- Claim C1: in training mode, `DatasetRetriever.__getitem__` invokes the
synthetic-mixer transform if and only if the attention-mask sum (the count
of non-padding tokens) of the tokenized augmented text is strictly below
60; below 60 the mixer transform runs on the augmented text and its label
and its output is re-tokenized from scratch, and at 60 or more the first
tokenization is returned with no mixer invocation. -/
theorem spec_c1_mixer_trigger (pieces : String → List Nat)
    (augment : String → String → String) (synth : String → Nat → String)
    (text lang : String) (label : Nat) :
    ((getitem_train pieces augment synth text lang label).mixerInvoked = true
      ↔ (get_tokens pieces (augment text lang)).2.sum < 60)
    ∧ (getitem_train pieces augment synth text lang label).token_ids
        = (if (get_tokens pieces (augment text lang)).2.sum < 60
           then (get_tokens pieces (synth (augment text lang) label)).1
           else (get_tokens pieces (augment text lang)).1)
    ∧ (getitem_train pieces augment synth text lang label).attention_mask
        = (if (get_tokens pieces (augment text lang)).2.sum < 60
           then (get_tokens pieces (synth (augment text lang) label)).2
           else (get_tokens pieces (augment text lang)).2)
    ∧ (getitem_train pieces augment synth text lang label).target = label := by
  unfold getitem_train
  by_cases h : (get_tokens pieces (augment text lang)).2.sum < 60 <;>
    simp [h]

/-- Claim C2: every fetched sample carries `token_ids` and
`attention_mask` of length exactly `MAX_LENGTH = 224`, in training mode
and in evaluation/test mode, for every input text (the empty string
included) and every subword tokenization. -/
theorem spec_c2_fixed_length (pieces : String → List Nat)
    (augment : String → String → String) (synth : String → Nat → String)
    (text lang : String) (label : Nat) :
    (getitem_train pieces augment synth text lang label).token_ids.length
        = MAX_LENGTH
    ∧ (getitem_train pieces augment synth text lang label).attention_mask.length
        = MAX_LENGTH
    ∧ (getitem_eval pieces text label).token_ids.length = MAX_LENGTH
    ∧ (getitem_eval pieces text label).attention_mask.length = MAX_LENGTH
    ∧ MAX_LENGTH = 224 := by
  refine ⟨?_, ?_, (get_tokens_length pieces text).1,
    (get_tokens_length pieces text).2, rfl⟩ <;>
  · unfold getitem_train
    by_cases h : (get_tokens pieces (augment text lang)).2.sum < 60 <;>
      simp [h, (get_tokens_length pieces _).1, (get_tokens_length pieces _).2]

set_option maxRecDepth 8192 in
/-- Claim C3 counterexample: with the subword tokenizer producing no
pieces for the empty string, tokenizing the empty string does not give an
attention-mask sum of zero — `add_special_tokens=True` always contributes
the two special tokens `<s>` and `</s>`, so the sum is 2. -/
theorem spec_c3_counterexample :
    ¬ ((get_tokens (fun _ => []) "").2.sum = 0) := by decide

set_option maxRecDepth 8192 in
/-- Claim C3 (amended): tokenizing the empty string does not raise and
produces the two special tokens followed by padding only, with
attention-mask sum 2 (not an all-padding sequence with sum zero). -/
theorem spec_c3_empty_string (pieces : String → List Nat)
    (h : pieces "" = []) :
    get_tokens pieces ""
      = (bos_token_id :: eos_token_id :: List.replicate 222 pad_token_id,
         1 :: 1 :: List.replicate 222 0)
    ∧ (get_tokens pieces "").2.sum = 2 := by
  have e : get_tokens pieces ""
      = (bos_token_id :: eos_token_id :: List.replicate 222 pad_token_id,
         1 :: 1 :: List.replicate 222 0) := by
    unfold get_tokens
    rw [h]
    decide
  refine ⟨e, ?_⟩
  rw [e]
  decide

theorem spec_c3_empty_string_witness :
    (fun _ : String => ([] : List Nat)) "" = []
    ∧ (get_tokens (fun _ => []) ""
        = (bos_token_id :: eos_token_id :: List.replicate 222 pad_token_id,
           1 :: 1 :: List.replicate 222 0)
      ∧ (get_tokens (fun _ => []) "").2.sum = 2) :=
  ⟨rfl, spec_c3_empty_string (fun _ => []) rfl⟩

/-! ## Checkpoint-on-improvement (`TPUFitter.fit`) -/

/-- The end-of-epoch checkpoint policy of `TPUFitter.fit`: given the
current `best_score` and the successive validation scores (one
`final_scores.avg` per epoch), record for each epoch whether
`final_scores.avg > self.best_score` held — exactly then the model is
saved (and inference runs) and `best_score` is replaced by the new score.
`TPUFitter.__init__` sets `best_score = 0`, so a fresh fitter starts the
fold at `0`. -/
def fit_saves : ℚ → List ℚ → List Bool
  | _, [] => []
  | best, s :: rest =>
    if s > best then true :: fit_saves s rest else false :: fit_saves best rest

/-- Claim C4 counterexample: a fresh fitter (`best_score = 0`) observing
validation scores 0.80 then 0.85 saves after BOTH epochs (0.80 already
improves on the initial best 0), not exactly once. -/
theorem spec_c4_counterexample :
    ¬ ((fit_saves 0 [4 / 5, 17 / 20]).count true = 1) := by
  have e : fit_saves 0 [4 / 5, 17 / 20] = [true, true] := by
    norm_num [fit_saves]
  rw [e]
  decide

/-- Claim C4 (amended): a checkpoint save occurs after a validation epoch
exactly when its score strictly improves on the best-seen score, where the
best-seen score starts at 0 in a fresh fitter; hence scores 0.80 then 0.85
produce two saves (one after each epoch), and 0.80 then 0.75 produce one
save (after the 0.80 epoch). -/
theorem spec_c4_save_on_improvement :
    (∀ (best s : ℚ) (rest : List ℚ),
        fit_saves best (s :: rest)
          = decide (s > best) :: fit_saves (max best s) rest)
    ∧ fit_saves 0 [4 / 5, 17 / 20] = [true, true]
    ∧ fit_saves 0 [4 / 5, 3 / 4] = [true, false] := by
  refine ⟨?_, by norm_num [fit_saves], by norm_num [fit_saves]⟩
  intro best s rest
  by_cases h : s > best
  · simp [fit_saves, h, max_eq_right (le_of_lt h)]
  · simp [fit_saves, h, max_eq_left (not_lt.1 h)]

/-! ## Rolling AUC meter (`RocAucMeter`) -/

/-- The state of `RocAucMeter`: the two accumulated history arrays and the
most recently computed score. -/
structure RocAucMeter where
  y_true : List Nat
  y_pred : List ℚ
  score : ℚ

/-- Mirrors `RocAucMeter.reset()`: seed the history with the two pairs
(label 0, probability 0.5) and (label 1, probability 0.5) and set the
score to 0 — no score is recomputed. -/
def RocAucMeter.reset : RocAucMeter :=
  ⟨[0, 1], [1 / 2, 1 / 2], 0⟩

/-- The numpy tail slice `arr[-n:]`. -/
def lastSlice {α : Type} (n : Nat) (l : List α) : List α :=
  l.drop (l.length - n)

/-- Mirrors `RocAucMeter.update(y_true, y_pred)`: convert each two-class logit
pair to a class-1 probability (`softmax1` models the external softmax),
append the batch to both history arrays, and recompute the score by the
external ROC-AUC function `auc` over only the last 10000 accumulated
pairs. -/
def RocAucMeter.update (auc : List Nat → List ℚ → ℚ) (softmax1 : ℚ × ℚ → ℚ)
    (m : RocAucMeter) (yt : List Nat) (logits : List (ℚ × ℚ)) : RocAucMeter :=
  ⟨m.y_true ++ yt, m.y_pred ++ logits.map softmax1,
   auc (lastSlice 10000 (m.y_true ++ yt))
     (lastSlice 10000 (m.y_pred ++ logits.map softmax1))⟩

/-- The `avg` property of `RocAucMeter`: the stored score. -/
def RocAucMeter.avg (m : RocAucMeter) : ℚ := m.score

/-- Claim C7: after `reset()` the `avg` property is 0 while the backing
arrays hold exactly the two seed pairs; every `update` appends the batch
to the backing arrays (they grow and are never trimmed) and sets the score
to the ROC-AUC computed over only the last 10000 accumulated pairs. -/
theorem spec_c7_rolling_auc :
    RocAucMeter.reset.avg = 0
    ∧ RocAucMeter.reset.y_true = [0, 1]
    ∧ RocAucMeter.reset.y_pred = [1 / 2, 1 / 2]
    ∧ ∀ (auc : List Nat → List ℚ → ℚ) (softmax1 : ℚ × ℚ → ℚ)
        (m : RocAucMeter) (yt : List Nat) (logits : List (ℚ × ℚ)),
        (m.update auc softmax1 yt logits).avg
            = auc (lastSlice 10000 (m.y_true ++ yt))
                (lastSlice 10000 (m.y_pred ++ logits.map softmax1))
        ∧ (m.update auc softmax1 yt logits).y_true = m.y_true ++ yt
        ∧ (m.update auc softmax1 yt logits).y_pred
            = m.y_pred ++ logits.map softmax1
        ∧ (m.update auc softmax1 yt logits).y_true.length
            = m.y_true.length + yt.length
        ∧ (m.update auc softmax1 yt logits).y_pred.length
            = m.y_pred.length + logits.length := by
  refine ⟨rfl, rfl, rfl, ?_⟩
  intro auc softmax1 m yt logits
  exact ⟨rfl, rfl, rfl, by simp [RocAucMeter.update],
    by simp [RocAucMeter.update]⟩

/-! ## Loss meter and the training-epoch batch skip -/

/-- The state of `AverageMeter`. -/
structure AverageMeter where
  val : ℚ
  avg : ℚ
  sum : ℚ
  count : ℚ

/-- Mirrors `AverageMeter.reset()`. -/
def AverageMeter.reset : AverageMeter := ⟨0, 0, 0, 0⟩

/-- Mirrors `AverageMeter.update(val, n)`. -/
def AverageMeter.update (m : AverageMeter) (v n : ℚ) : AverageMeter :=
  ⟨v, (m.sum + v * n) / (m.count + n), m.sum + v * n, m.count + n⟩

/-- The mutable state touched by one loop iteration of
`TPUFitter.train_one_epoch`: the model (with its optimizer and scheduler
progress counted explicitly) and the two meters. -/
structure TrainStepState (M : Type) where
  model : M
  losses : AverageMeter
  final_scores : RocAucMeter
  optimizer_steps : Nat
  scheduler_steps : Nat

/-- One loop iteration of `TPUFitter.train_one_epoch` on a batch
`(targets, inputs, attention_masks)`: when `sum(targets) <
batch_size * 0.15` the iteration `continue`s, touching nothing; otherwise
the forward pass runs (the external classifier is `forward`, returning
loss and logits), both meters update, the loss is backpropagated and the
optimizer steps (`backward_opt`), and the scheduler steps when
`config.step_scheduler` is set. -/
def train_batch_step (M : Type) (batch_size : ℚ) (step_scheduler : Bool)
    (forward : M → List (List Nat) → List (List Nat) → List Nat → ℚ × List (ℚ × ℚ))
    (backward_opt : M → ℚ → M)
    (auc : List Nat → List ℚ → ℚ) (softmax1 : ℚ × ℚ → ℚ)
    (st : TrainStepState M) (targets : List Nat)
    (inputs attention_masks : List (List Nat)) : TrainStepState M :=
  if ((targets.sum : ℚ)) < batch_size * (15 / 100) then st
  else
    let out := forward st.model inputs attention_masks targets
    ⟨backward_opt st.model out.1,
     st.losses.update out.1 ((inputs.length : ℚ)),
     st.final_scores.update auc softmax1 targets out.2,
     st.optimizer_steps + 1,
     st.scheduler_steps + if step_scheduler then 1 else 0⟩

/-- Claim C10: a batch whose target sum is strictly below
`batch_size * 0.15` is skipped entirely — the model, both meters and the
optimizer/scheduler progress are all left exactly unchanged. -/
theorem spec_c10_low_positive_batch_skipped (M : Type) (batch_size : ℚ)
    (step_scheduler : Bool)
    (forward : M → List (List Nat) → List (List Nat) → List Nat → ℚ × List (ℚ × ℚ))
    (backward_opt : M → ℚ → M)
    (auc : List Nat → List ℚ → ℚ) (softmax1 : ℚ × ℚ → ℚ)
    (st : TrainStepState M) (targets : List Nat)
    (inputs attention_masks : List (List Nat))
    (h : ((targets.sum : ℚ)) < batch_size * (15 / 100)) :
    train_batch_step M batch_size step_scheduler forward backward_opt auc
      softmax1 st targets inputs attention_masks = st := by
  unfold train_batch_step
  rw [if_pos h]

theorem spec_c10_low_positive_batch_skipped_witness :
    ((([0, 1] : List Nat).sum : ℚ) < 7 * (15 / 100))
    ∧ train_batch_step Nat 7 false (fun _ _ _ _ => (0, [])) (fun m _ => m)
        (fun _ _ => 0) (fun _ => 0)
        ⟨0, AverageMeter.reset, RocAucMeter.reset, 0, 0⟩ [0, 1] [] []
      = ⟨0, AverageMeter.reset, RocAucMeter.reset, 0, 0⟩ :=
  ⟨by norm_num,
   spec_c10_low_positive_batch_skipped Nat 7 false (fun _ _ _ _ => (0, []))
     (fun m _ => m) (fun _ _ => 0) (fun _ => 0)
     ⟨0, AverageMeter.reset, RocAucMeter.reset, 0, 0⟩ [0, 1] [] []
     (by norm_num)⟩

/-! ## Synthetic sample mixer (`SynthesicOpenSubtitlesTransform`) -/

/-- Model of `random.randint(a, b)` (both bounds inclusive), driven by an external
draw `d`. -/
def randint (a b d : Nat) : Nat :=
  a + d % (b - a + 1)

/-- Model of `random.choice(pool)`, driven by an external draw `d`. -/
def choice (pool : List String) (d : Nat) : String :=
  pool.getD (d % pool.length) ""

/-- The fragment list built by
`SynthesicOpenSubtitlesTransform.generate_synthesic_sample(text, toxic)`
before the final shuffle: the original text, then — for label 0 —
`randint(1, 5)` draws from the non-toxic pool, and — for any other label —
`randint(0, 2)` draws from the non-toxic pool followed by `randint(1, 3)`
draws from the toxic pool.  `d1` and `d2` are the two `randint` draws and
`cds` the successive `random.choice` draws. -/
def generate_synthesic_texts (non_toxic toxic : List String) (text : String)
    (label : Nat) (d1 d2 : Nat) (cds : Nat → Nat) : List String :=
  if label = 0 then
    text :: (List.range (randint 1 5 d1)).map (fun i => choice non_toxic (cds i))
  else
    text :: ((List.range (randint 0 2 d1)).map (fun i => choice non_toxic (cds i))
      ++ (List.range (randint 1 3 d2)).map
          (fun i => choice toxic (cds (randint 0 2 d1 + i))))

/-- Mirrors `generate_synthesic_sample(text, toxic)`: shuffle the fragment list
(`shuffle` models `random.shuffle`, a permutation) and join the fragments
with single spaces. -/
def generate_synthesic_sample (non_toxic toxic : List String) (text : String)
    (label : Nat) (d1 d2 : Nat) (cds : Nat → Nat)
    (shuffle : List String → List String) : String :=
  joinSp (shuffle (generate_synthesic_texts non_toxic toxic text label d1 d2 cds))

theorem randint_le (a b d : Nat) (h : a ≤ b) : randint a b d ≤ b := by
  unfold randint
  have h1 : d % (b - a + 1) < b - a + 1 := Nat.mod_lt d (Nat.succ_pos _)
  omega

theorem le_randint (a b d : Nat) : a ≤ randint a b d :=
  Nat.le_add_right a _

theorem choice_mem (pool : List String) (d : Nat) (h : pool ≠ []) :
    choice pool d ∈ pool := by
  unfold choice
  have hlen : 0 < pool.length := List.length_pos.mpr h
  have hlt : d % pool.length < pool.length := Nat.mod_lt d hlen
  rw [List.getD_eq_getElem pool "" hlt]
  exact List.getElem_mem hlt

/-- Claim C6: with label 0 the mixer appends between 1 and 5 sentences
from the non-toxic pool to the original text; with label 1 it appends
between 0 and 2 non-toxic plus between 1 and 3 toxic sentences; the full
fragment list (original text included) is shuffled and joined with single
spaces; and with label 1 the shuffled fragment list always contains at
least one member of the toxic pool. -/
theorem spec_c6_synthetic_mixer (non_toxic toxic : List String)
    (text : String) (d1 d2 : Nat) (cds : Nat → Nat)
    (shuffle : List String → List String)
    (hsh : (shuffle (generate_synthesic_texts non_toxic toxic text 1 d1 d2 cds)).Perm
        (generate_synthesic_texts non_toxic toxic text 1 d1 d2 cds))
    (hnt : non_toxic ≠ []) (htx : toxic ≠ []) :
    (generate_synthesic_texts non_toxic toxic text 0 d1 d2 cds).length
        = 1 + randint 1 5 d1
    ∧ 1 ≤ randint 1 5 d1 ∧ randint 1 5 d1 ≤ 5
    ∧ (∀ s ∈ generate_synthesic_texts non_toxic toxic text 0 d1 d2 cds,
        s = text ∨ s ∈ non_toxic)
    ∧ (generate_synthesic_texts non_toxic toxic text 1 d1 d2 cds).length
        = 1 + (randint 0 2 d1 + randint 1 3 d2)
    ∧ randint 0 2 d1 ≤ 2 ∧ 1 ≤ randint 1 3 d2 ∧ randint 1 3 d2 ≤ 3
    ∧ (∀ s ∈ generate_synthesic_texts non_toxic toxic text 1 d1 d2 cds,
        s = text ∨ s ∈ non_toxic ∨ s ∈ toxic)
    ∧ generate_synthesic_sample non_toxic toxic text 1 d1 d2 cds shuffle
        = joinSp (shuffle (generate_synthesic_texts non_toxic toxic text 1 d1 d2 cds))
    ∧ ∃ s ∈ shuffle (generate_synthesic_texts non_toxic toxic text 1 d1 d2 cds),
        s ∈ toxic := by
  have e0 : generate_synthesic_texts non_toxic toxic text 0 d1 d2 cds
      = text :: (List.range (randint 1 5 d1)).map
          (fun i => choice non_toxic (cds i)) := by
    simp [generate_synthesic_texts]
  have e1 : generate_synthesic_texts non_toxic toxic text 1 d1 d2 cds
      = text :: ((List.range (randint 0 2 d1)).map
            (fun i => choice non_toxic (cds i))
          ++ (List.range (randint 1 3 d2)).map
            (fun i => choice toxic (cds (randint 0 2 d1 + i)))) := by
    simp [generate_synthesic_texts]
  refine ⟨?_, le_randint 1 5 d1, randint_le 1 5 d1 (by norm_num), ?_, ?_,
    randint_le 0 2 d1 (by norm_num), le_randint 1 3 d2,
    randint_le 1 3 d2 (by norm_num), ?_, rfl, ?_⟩
  · rw [e0]
    simp only [List.length_cons, List.length_map, List.length_range]
    omega
  · intro s hs
    rw [e0] at hs
    simp only [List.mem_cons, List.mem_map, List.mem_range] at hs
    rcases hs with h | ⟨i, -, rfl⟩
    · exact Or.inl h
    · exact Or.inr (choice_mem non_toxic (cds i) hnt)
  · rw [e1]
    simp only [List.length_cons, List.length_append, List.length_map,
      List.length_range]
    omega
  · intro s hs
    rw [e1] at hs
    simp only [List.mem_cons, List.mem_append, List.mem_map,
      List.mem_range] at hs
    rcases hs with h | ⟨i, -, rfl⟩ | ⟨i, -, rfl⟩
    · exact Or.inl h
    · exact Or.inr (Or.inl (choice_mem non_toxic (cds i) hnt))
    · exact Or.inr (Or.inr (choice_mem toxic _ htx))
  · refine ⟨choice toxic (cds (randint 0 2 d1 + 0)), ?_,
      choice_mem toxic _ htx⟩
    rw [hsh.mem_iff, e1]
    simp only [List.mem_cons, List.mem_append, List.mem_map, List.mem_range]
    exact Or.inr (Or.inr ⟨0, le_randint 1 3 d2, rfl⟩)

theorem spec_c6_synthetic_mixer_witness :
    ((id (generate_synthesic_texts ["n"] ["t"] "x" 1 0 0 (fun i => i))).Perm
        (generate_synthesic_texts ["n"] ["t"] "x" 1 0 0 (fun i => i))
      ∧ (["n"] : List String) ≠ [] ∧ (["t"] : List String) ≠ [])
    ∧ ∃ s ∈ id (generate_synthesic_texts ["n"] ["t"] "x" 1 0 0 (fun i => i)),
        s ∈ (["t"] : List String) := by
  have h := spec_c6_synthetic_mixer ["n"] ["t"] "x" 0 0 (fun i => i) id
    (List.Perm.refl _) (by decide) (by decide)
  exact ⟨⟨List.Perm.refl _, by decide, by decide⟩,
    h.2.2.2.2.2.2.2.2.2.2⟩

/-! ## Duplicate-sentence removal (claim C5) -/

/-- First-occurrence deduplication, the specification-side description of
the duplicate-sentence filter: keep each string at its first occurrence
and drop every later duplicate. -/
def firstOccur : List String → List String
  | [] => []
  | t :: rest => t :: firstOccur (rest.filter (fun u => u ≠ t))
termination_by l => l.length
decreasing_by
  simp only [List.length_cons]
  exact Nat.lt_succ_of_le (List.length_filter_le _ _)

theorem firstOccur_nil : firstOccur [] = [] := by
  simp [firstOccur]

theorem firstOccur_cons (t : String) (rest : List String) :
    firstOccur (t :: rest) = t :: firstOccur (rest.filter (fun u => u ≠ t)) := by
  rw [firstOccur]

theorem dedupLoop_eq (l : List String) :
    ∀ acc : List String,
      dedupLoop acc l
        = acc ++ firstOccur ((l.map pyStripStr).filter (fun t => t ∉ acc)) := by
  induction l with
  | nil => intro acc; simp [dedupLoop, firstOccur_nil]
  | cons s rest ih =>
    intro acc
    by_cases h : pyStripStr s ∈ acc
    · rw [show dedupLoop acc (s :: rest) = dedupLoop acc rest from by
        simp [dedupLoop, h], ih acc]
      congr 2
      simp only [List.map_cons, List.filter_cons]
      rw [if_neg (by simpa using h)]
    · rw [show dedupLoop acc (s :: rest) = dedupLoop (acc ++ [pyStripStr s]) rest
          from by simp [dedupLoop, h], ih (acc ++ [pyStripStr s])]
      simp only [List.map_cons, List.filter_cons]
      rw [if_pos (by simpa using h), firstOccur_cons, List.append_assoc,
        List.singleton_append]
      congr 2
      rw [List.filter_filter]
      refine congrArg firstOccur (List.filter_congr ?_)
      intro a _
      simp only [List.mem_append, List.mem_singleton, decide_not]
      by_cases ha : a ∈ acc
      · simp [ha]
      · by_cases hat : a = pyStripStr s <;> simp [ha, hat]

theorem firstOccur_mem : ∀ (l : List String) (s : String),
    s ∈ firstOccur l ↔ s ∈ l
  | [], s => by simp [firstOccur_nil]
  | t :: rest, s => by
    have ih := firstOccur_mem (rest.filter (fun u => u ≠ t)) s
    rw [firstOccur_cons]
    simp only [List.mem_cons, ih, List.mem_filter, decide_eq_true_eq]
    by_cases hst : s = t <;> simp [hst]
termination_by l => l.length
decreasing_by
  simp only [List.length_cons]
  exact Nat.lt_succ_of_le (List.length_filter_le _ _)

theorem firstOccur_nodup : ∀ l : List String, (firstOccur l).Nodup
  | [] => by simp [firstOccur_nil]
  | t :: rest => by
    rw [firstOccur_cons]
    refine List.nodup_cons.mpr ⟨?_, firstOccur_nodup _⟩
    intro hmem
    rw [firstOccur_mem] at hmem
    simp [List.mem_filter] at hmem
termination_by l => l.length
decreasing_by
  simp only [List.length_cons]
  exact Nat.lt_succ_of_le (List.length_filter_le _ _)

theorem firstOccur_sublist : ∀ l : List String, (firstOccur l).Sublist l
  | [] => by simp [firstOccur_nil]
  | t :: rest => by
    rw [firstOccur_cons]
    exact List.Sublist.cons₂ t
      ((firstOccur_sublist _).trans (List.filter_sublist _))
termination_by l => l.length
decreasing_by
  simp only [List.length_cons]
  exact Nat.lt_succ_of_le (List.length_filter_le _ _)

theorem exclude_duplicate_sentences_eq (split : String → String → List String)
    (text lang : String) :
    exclude_duplicate_sentences split text lang
      = joinSp (firstOccur ((get_sentences split text lang).map pyStripStr)) := by
  unfold exclude_duplicate_sentences
  rw [dedupLoop_eq]
  simp

/-- Claim C5: `clean_text` splits the (regex-cleaned) text into sentences,
strips each, keeps each stripped sentence exactly once at its first
occurrence (case-sensitive comparison), and rejoins the survivors with
single spaces (plus the final strip); the kept sentence list is exactly
the first-occurrence deduplication of the stripped sentence list — it has
no duplicates, is a subsequence of the original stripped sentence list
(first-occurrence order), and keeps exactly the members of that list. -/
theorem spec_c5_duplicate_sentence_removal
    (split : String → String → List String) (text lang : String) :
    clean_text split text lang
      = pyStripStr (joinSp (firstOccur
          ((get_sentences split (String.mk (preClean text.data)) lang).map
            pyStripStr)))
    ∧ (firstOccur
        ((get_sentences split (String.mk (preClean text.data)) lang).map
          pyStripStr)).Nodup
    ∧ (firstOccur
        ((get_sentences split (String.mk (preClean text.data)) lang).map
          pyStripStr)).Sublist
        ((get_sentences split (String.mk (preClean text.data)) lang).map
          pyStripStr)
    ∧ ∀ s, s ∈ firstOccur
          ((get_sentences split (String.mk (preClean text.data)) lang).map
            pyStripStr)
        ↔ s ∈ (get_sentences split (String.mk (preClean text.data)) lang).map
            pyStripStr := by
  refine ⟨?_, firstOccur_nodup _, firstOccur_sublist _,
    fun s => firstOccur_mem _ s⟩
  unfold clean_text
  rw [exclude_duplicate_sentences_eq]

/-- Claim C9: cleaning the text `"Check this out http://x.co #great @bob
123"` with language `en` yields exactly `"Check this out"`.  The regex
passes produce `"Check this out "`; the hypotheses pin down the external
sentence splitter's behaviour on that boundary-free text (one single
sentence that strips to `"Check this out"`). -/
theorem spec_c9_scenario (split : String → String → List String)
    (sent : String)
    (hsp : split "Check this out " "english" = [sent])
    (hst : pyStripStr sent = "Check this out") :
    clean_text split "Check this out http://x.co #great @bob 123" "en"
      = "Check this out" := by
  unfold clean_text exclude_duplicate_sentences get_sentences
  have hpre : String.mk
      (preClean "Check this out http://x.co #great @bob 123".data)
      = "Check this out " := by decide
  have hl : langLookup "en" = "english" := by decide
  rw [hpre, hl, hsp]
  have hd : dedupLoop [] [sent] = [pyStripStr sent] := by
    simp [dedupLoop]
  rw [hd, hst]
  decide

theorem spec_c9_scenario_witness :
    ((fun (_ : String) (_ : String) => ["Check this out "])
        "Check this out " "english" = ["Check this out "])
    ∧ pyStripStr "Check this out " = "Check this out"
    ∧ clean_text (fun _ _ => ["Check this out "])
        "Check this out http://x.co #great @bob 123" "en"
      = "Check this out" :=
  ⟨rfl, by decide,
   spec_c9_scenario (fun _ _ => ["Check this out "]) "Check this out "
     rfl (by decide)⟩

/-! ## Pattern-occurrence predicates (claim C8) -/

/-- Predicate: `p` occurs as a contiguous substring of `l`. -/
def InfixOf (p l : List Char) : Prop :=
  ∃ a b, l = a ++ p ++ b

/-- An occurrence of the claim's hashtag/mention pattern (`#\S+` resp.
`@\S+`): the marker character immediately followed by at least one
non-whitespace character. -/
def MarkerAdj (mark : Char) (l : List Char) : Prop :=
  ∃ a c b, l = a ++ mark :: c :: b ∧ pySpace c = false

/-- An occurrence of the URL pattern `https?\S+`: a literal `http`
immediately followed by at least one non-whitespace character (the
optional `s` is itself non-whitespace, so a match exists iff such an
occurrence does). -/
def HttpAdj (l : List Char) : Prop :=
  ∃ a c b, l = a ++ 'h' :: 't' :: 't' :: 'p' :: c :: b ∧ pySpace c = false

/-- Claim C8 counterexample: cleaning the text `"#!!!"` (language `en`)
returns `"#!!!"` unchanged — the code's hashtag pattern `#[\S]+\b` finds
no terminal word boundary in a token with no word character — so the
output contains a substring matching the claim's hashtag pattern (`'#'`
followed by a non-whitespace run). -/
theorem spec_c8_counterexample :
    MarkerAdj '#' (clean_text (fun s _ => [s]) "#!!!" "en").data := by
  have e : clean_text (fun s _ => [s]) "#!!!" "en" = "#!!!" := by decide
  rw [e]
  exact ⟨[], '!', ['!', '!'], by decide, by decide⟩

theorem httpAdj_nil : ¬ HttpAdj [] := by
  rintro ⟨a, c, b, heq, -⟩
  have := congrArg List.length heq
  simp at this
  omega

theorem httpAdj_cons_intro (c : Char) (l : List Char) (h : HttpAdj l) :
    HttpAdj (c :: l) := by
  obtain ⟨a, d, b, heq, hd⟩ := h
  exact ⟨c :: a, d, b, by simp [heq], hd⟩

theorem httpAdj_append_left (a l : List Char) (h : HttpAdj l) :
    HttpAdj (a ++ l) := by
  induction a with
  | nil => simpa using h
  | cons c a ih => exact httpAdj_cons_intro c _ ih

theorem httpAdj_mono (p l : List Char) (hi : InfixOf p l)
    (h : HttpAdj p) : HttpAdj l := by
  obtain ⟨x, y, rfl⟩ := hi
  obtain ⟨a, d, b, heq, hd⟩ := h
  exact ⟨x ++ a, d, b ++ y, by simp [heq], hd⟩

theorem httpAdj_cons_elim (c : Char) (l : List Char)
    (h : HttpAdj (c :: l)) :
    (c = 'h' ∧ ∃ d b, l = 't' :: 't' :: 'p' :: d :: b ∧ pySpace d = false)
    ∨ HttpAdj l := by
  obtain ⟨a, d, b, heq, hd⟩ := h
  cases a with
  | nil =>
    simp only [List.nil_append, List.cons.injEq] at heq
    exact Or.inl ⟨heq.1, d, b, heq.2, hd⟩
  | cons e a =>
    simp only [List.cons_append, List.cons.injEq] at heq
    exact Or.inr ⟨a, d, b, heq.2, hd⟩

theorem subUrlAux_fuel : ∀ (f1 f2 : Nat) (l : List Char),
    l.length ≤ f1 → l.length ≤ f2 → subUrlAux f1 l = subUrlAux f2 l
  | 0, f2, l, h1, _ => by
    have hl : l = [] := List.length_eq_zero.mp (Nat.le_zero.mp h1)
    subst hl
    cases f2 <;> rfl
  | f1 + 1, 0, l, _, h2 => by
    have hl : l = [] := List.length_eq_zero.mp (Nat.le_zero.mp h2)
    subst hl
    rfl
  | _ + 1, _ + 1, [], _, _ => rfl
  | f1 + 1, f2 + 1, c :: rest, h1, h2 => by
    have hr1 : rest.length ≤ f1 := by simp only [List.length_cons] at h1; omega
    have hr2 : rest.length ≤ f2 := by simp only [List.length_cons] at h2; omega
    simp only [subUrlAux]
    by_cases hs : startsHttp (c :: rest)
    · rw [if_pos hs, if_pos hs]
      by_cases he : (((c :: rest).drop 4).takeWhile (fun d => !pySpace d)).isEmpty
      · rw [if_pos he, if_pos he, subUrlAux_fuel f1 f2 rest hr1 hr2]
      · rw [if_neg he, if_neg he]
        refine subUrlAux_fuel f1 f2 _ ?_ ?_ <;>
        · simp only [List.length_drop, List.length_cons]
          omega
    · rw [if_neg hs, if_neg hs, subUrlAux_fuel f1 f2 rest hr1 hr2]

theorem subUrl_nil : subUrl [] = [] := rfl

theorem subUrl_cons (c : Char) (rest : List Char)
    (h : startsHttp (c :: rest) = false) :
    subUrl (c :: rest) = c :: subUrl rest := by
  unfold subUrl
  simp only [List.length_cons, subUrlAux]
  rw [if_neg (by simp [h])]

theorem subUrl_http (r : List Char) :
    subUrl ('h' :: 't' :: 't' :: 'p' :: r)
      = if (r.takeWhile (fun d => !pySpace d)).isEmpty then
          'h' :: subUrl ('t' :: 't' :: 'p' :: r)
        else
          subUrl (r.drop (r.takeWhile (fun d => !pySpace d)).length) := by
  have hs : startsHttp ('h' :: 't' :: 't' :: 'p' :: r) = true := by
    simp [startsHttp]
  unfold subUrl
  simp only [List.length_cons, subUrlAux]
  rw [if_pos hs]
  have hd : ('h' :: 't' :: 't' :: 'p' :: r).drop 4 = r := rfl
  rw [hd]
  by_cases he : (r.takeWhile (fun d => !pySpace d)).isEmpty
  · rw [if_pos he, if_pos he]
  · rw [if_neg he, if_neg he]
    refine subUrlAux_fuel _ _ _ ?_ (le_refl _)
    simp only [List.length_drop]
    omega

theorem collapseWsAux_fuel : ∀ (f1 f2 : Nat) (l : List Char),
    l.length ≤ f1 → l.length ≤ f2 → collapseWsAux f1 l = collapseWsAux f2 l
  | 0, f2, l, h1, _ => by
    have hl : l = [] := List.length_eq_zero.mp (Nat.le_zero.mp h1)
    subst hl
    cases f2 <;> rfl
  | f1 + 1, 0, l, _, h2 => by
    have hl : l = [] := List.length_eq_zero.mp (Nat.le_zero.mp h2)
    subst hl
    rfl
  | _ + 1, _ + 1, [], _, _ => rfl
  | f1 + 1, f2 + 1, c :: rest, h1, h2 => by
    have hr1 : rest.length ≤ f1 := by simp only [List.length_cons] at h1; omega
    have hr2 : rest.length ≤ f2 := by simp only [List.length_cons] at h2; omega
    simp only [collapseWsAux]
    by_cases hc : pySpace c
    · rw [if_pos hc, if_pos hc, collapseWsAux_fuel f1 f2 (rest.dropWhile pySpace)
        (le_trans (List.Sublist.length_le (List.dropWhile_sublist _)) hr1)
        (le_trans (List.Sublist.length_le (List.dropWhile_sublist _)) hr2)]
    · rw [if_neg hc, if_neg hc, collapseWsAux_fuel f1 f2 rest hr1 hr2]

theorem collapseWs_nil : collapseWs [] = [] := rfl

theorem collapseWs_cons_space (c : Char) (rest : List Char)
    (h : pySpace c = true) :
    collapseWs (c :: rest) = ' ' :: collapseWs (rest.dropWhile pySpace) := by
  unfold collapseWs
  simp only [List.length_cons, collapseWsAux]
  rw [if_pos h]
  rw [collapseWsAux_fuel rest.length (rest.dropWhile pySpace).length
    (rest.dropWhile pySpace)
    (List.Sublist.length_le (List.dropWhile_sublist _)) (le_refl _)]

theorem collapseWs_cons_nonspace (c : Char) (rest : List Char)
    (h : pySpace c = false) :
    collapseWs (c :: rest) = c :: collapseWs rest := by
  unfold collapseWs
  simp only [List.length_cons, collapseWsAux]
  rw [if_neg (by simp [h])]

theorem dropWhile_head_false (p : Char → Bool) : ∀ (l : List Char) (c : Char)
    (X : List Char), l.dropWhile p = c :: X → p c = false
  | [], c, X => by intro h; simp at h
  | d :: rest, c, X => by
    intro h
    by_cases hd : p d
    · rw [List.dropWhile_cons_of_pos hd] at h
      exact dropWhile_head_false p rest c X h
    · rw [List.dropWhile_cons_of_neg hd] at h
      obtain ⟨rfl, -⟩ := List.cons.injEq .. ▸ h
      · simpa using hd

theorem takeWhile_isEmpty_head (p : Char → Bool) (e : Char) (tail : List Char)
    (h : ((e :: tail).takeWhile p).isEmpty = true) : p e = false := by
  by_cases hp : p e
  · rw [List.takeWhile_cons_of_pos hp] at h
    simp at h
  · simpa using hp

theorem drop_takeWhile_len (p : Char → Bool) (l : List Char) :
    l.drop (l.takeWhile p).length = l.dropWhile p := by
  have h := @List.takeWhile_append_dropWhile _ p l
  calc l.drop (l.takeWhile p).length
      = (l.takeWhile p ++ l.dropWhile p).drop (l.takeWhile p).length := by
        rw [h]
    _ = l.dropWhile p := List.drop_left _ _

theorem startsHttp_eq_true (l : List Char) :
    startsHttp l = true ↔ ∃ r, l = 'h' :: 't' :: 't' :: 'p' :: r := by
  unfold startsHttp
  rw [decide_eq_true_eq]
  constructor
  · intro h
    refine ⟨l.drop 4, ?_⟩
    conv_lhs => rw [← List.take_append_drop 4 l]
    rw [h]
    rfl
  · rintro ⟨r, rfl⟩
    rfl

theorem startsHttp_of_space (e : Char) (tail : List Char)
    (h : pySpace e = true) : startsHttp (e :: tail) = false := by
  cases hq : startsHttp (e :: tail) with
  | false => rfl
  | true =>
    obtain ⟨r, hr⟩ := (startsHttp_eq_true _).mp hq
    injection hr with h1 h2
    subst h1
    exact absurd h (by decide)

theorem subUrl_head : ∀ (l : List Char) (c : Char) (X : List Char),
    subUrl l = c :: X → pySpace c = true ∨ ∃ l2, l = c :: l2 ∧ X = subUrl l2
  | [], c, X => by
    rw [subUrl_nil]
    intro h
    simp at h
  | d :: rest, c, X => by
    intro h
    by_cases hs : startsHttp (d :: rest)
    · obtain ⟨r, hr⟩ := (startsHttp_eq_true _).mp hs
      injection hr with h1 h2
      subst h1
      subst h2
      rw [subUrl_http r] at h
      by_cases he : (r.takeWhile (fun d => !pySpace d)).isEmpty
      · rw [if_pos he] at h
        obtain ⟨rfl, hX⟩ := List.cons.injEq .. ▸ h
        · exact Or.inr ⟨'t' :: 't' :: 'p' :: r, rfl, hX.symm ▸ rfl⟩
      · rw [if_neg he, drop_takeWhile_len] at h
        cases hq : r.dropWhile (fun d => !pySpace d) with
        | nil =>
          rw [hq, subUrl_nil] at h
          simp at h
        | cons e tail =>
          have hesp : pySpace e = true := by
            simpa using dropWhile_head_false _ r e tail hq
          rw [hq, subUrl_cons e tail (startsHttp_of_space e tail hesp)] at h
          obtain ⟨rfl, -⟩ := List.cons.injEq .. ▸ h
          · exact Or.inl hesp
    · rw [subUrl_cons d rest (by simpa using hs)] at h
      obtain ⟨rfl, hX⟩ := List.cons.injEq .. ▸ h
      · exact Or.inr ⟨rest, rfl, hX.symm⟩

theorem not_httpAdj_subUrl : ∀ l : List Char, ¬ HttpAdj (subUrl l)
  | [] => by
    rw [subUrl_nil]
    exact httpAdj_nil
  | d :: rest => by
    intro h
    by_cases hs : startsHttp (d :: rest)
    · obtain ⟨r, hr⟩ := (startsHttp_eq_true _).mp hs
      injection hr with h1 h2
      rw [h1, h2] at h
      rw [subUrl_http r] at h
      by_cases he : (r.takeWhile (fun d => !pySpace d)).isEmpty
      · rw [if_pos he] at h
        rcases httpAdj_cons_elim _ _ h with ⟨-, d5, b5, hb, hd5⟩ | h2x
        · rw [subUrl_cons _ _ (by simp [startsHttp]),
            subUrl_cons _ _ (by simp [startsHttp]),
            subUrl_cons _ _ (by simp [startsHttp])] at hb
          simp only [List.cons.injEq, true_and] at hb
          cases r with
          | nil =>
            rw [subUrl_nil] at hb
            simp at hb
          | cons e tail =>
            have hesp : pySpace e = true := by
              simpa using takeWhile_isEmpty_head (fun d => !pySpace d) e tail he
            rw [subUrl_cons e tail (startsHttp_of_space e tail hesp)] at hb
            injection hb with hb1 hb2
            rw [hb1] at hesp
            rw [hesp] at hd5
            exact Bool.noConfusion hd5
        · exact not_httpAdj_subUrl ('t' :: 't' :: 'p' :: r) h2x
      · rw [if_neg he] at h
        exact not_httpAdj_subUrl _ h
    · rw [subUrl_cons d rest (by simpa using hs)] at h
      rcases httpAdj_cons_elim _ _ h with ⟨rfl, d5, b5, hb, hd5⟩ | h2
      · rcases subUrl_head rest 't' _ hb with hsp | ⟨l1, rfl, hX1⟩
        · exact absurd hsp (by decide)
        · rcases subUrl_head l1 't' _ hX1.symm with hsp | ⟨l2, rfl, hX2⟩
          · exact absurd hsp (by decide)
          · rcases subUrl_head l2 'p' _ hX2.symm with hsp | ⟨l3, rfl, hX3⟩
            · exact absurd hsp (by decide)
            · exact hs (by simp [startsHttp])
      · exact not_httpAdj_subUrl rest h2
termination_by l => l.length
decreasing_by
  all_goals
    first
      | (have hl2 := congrArg List.length h2
         simp only [List.length_cons, List.length_drop] at hl2 ⊢
         omega)
      | (simp only [List.length_cons, List.length_drop]
         omega)

theorem collapseWs_head (l : List Char) (c : Char) (X : List Char)
    (hc : pySpace c = false) (h : collapseWs l = c :: X) :
    ∃ l2, l = c :: l2 ∧ X = collapseWs l2 := by
  cases l with
  | nil =>
    rw [collapseWs_nil] at h
    simp at h
  | cons d rest =>
    by_cases hd : pySpace d
    · rw [collapseWs_cons_space d rest hd] at h
      injection h with h1 h2
      rw [← h1] at hc
      exact absurd hc (by decide)
    · rw [collapseWs_cons_nonspace d rest (by simpa using hd)] at h
      injection h with h1 h2
      exact ⟨rest, by rw [h1], h2.symm⟩

theorem httpAdj_collapseWs : ∀ l : List Char, HttpAdj (collapseWs l) → HttpAdj l
  | [] => by
    rw [collapseWs_nil]
    exact id
  | c :: rest => by
    intro h
    by_cases hc : pySpace c
    · rw [collapseWs_cons_space c rest hc] at h
      rcases httpAdj_cons_elim _ _ h with ⟨he, -⟩ | h2
      · exact absurd he (by decide)
      · have h3 := httpAdj_collapseWs (rest.dropWhile pySpace) h2
        have h4 : HttpAdj rest := by
          have hsplit := @List.takeWhile_append_dropWhile _ pySpace rest
          rw [← hsplit]
          exact httpAdj_append_left _ _ h3
        exact httpAdj_cons_intro c rest h4
    · rw [collapseWs_cons_nonspace c rest (by simpa using hc)] at h
      rcases httpAdj_cons_elim _ _ h with ⟨rfl, d5, b5, hb, hd5⟩ | h2
      · rcases collapseWs_head rest 't' _ (by decide) hb with ⟨l1, rfl, hX1⟩
        rcases collapseWs_head l1 't' _ (by decide) hX1.symm with ⟨l2, rfl, hX2⟩
        rcases collapseWs_head l2 'p' _ (by decide) hX2.symm with ⟨l3, rfl, hX3⟩
        rcases collapseWs_head l3 d5 _ hd5 hX3.symm with ⟨l4, rfl, hX4⟩
        exact ⟨[], d5, l4, rfl, hd5⟩
      · exact httpAdj_cons_intro c rest (httpAdj_collapseWs rest h2)
termination_by l => l.length
decreasing_by
  all_goals
    simp only [List.length_cons]
    first
      | exact Nat.lt_succ_of_le (List.Sublist.length_le (List.dropWhile_sublist _))
      | omega

theorem spacefree_front : ∀ (p x b y : List Char),
    (∀ c ∈ p, pySpace c = false) → p ++ b = x ++ ' ' :: y →
    ∃ x2, x = p ++ x2
  | [], x, b, y, _, _ => ⟨x, rfl⟩
  | c :: p', x, b, y, hp, heq => by
    cases x with
    | nil =>
      simp only [List.nil_append, List.cons_append, List.cons.injEq] at heq
      exact absurd (heq.1 ▸ hp c (List.mem_cons_self c p')) (by decide)
    | cons d x' =>
      simp only [List.cons_append, List.cons.injEq] at heq
      obtain ⟨hcd, heq2⟩ := heq
      obtain ⟨x2, hx2⟩ := spacefree_front p' x' b y
        (fun e he => hp e (List.mem_cons_of_mem c he)) heq2
      exact ⟨x2, by rw [hx2, List.cons_append, hcd]⟩

theorem httpAdj_append_space : ∀ (a x y : List Char) (c5 : Char)
    (b : List Char), pySpace c5 = false →
    x ++ ' ' :: y = a ++ 'h' :: 't' :: 't' :: 'p' :: c5 :: b →
    HttpAdj x ∨ HttpAdj y
  | [], x, y, c5, b, hc5, heq => by
    have hp : ∀ c ∈ ['h', 't', 't', 'p', c5], pySpace c = false := by
      intro c hcm
      simp only [List.mem_cons, List.not_mem_nil, or_false] at hcm
      rcases hcm with rfl | rfl | rfl | rfl | rfl <;>
        first
          | decide
          | exact hc5
    obtain ⟨x2, hx2⟩ := spacefree_front ['h', 't', 't', 'p', c5] x b y hp
      (by simpa using heq.symm)
    exact Or.inl ⟨[], c5, x2, by simpa using hx2, hc5⟩
  | a0 :: a', x, y, c5, b, hc5, heq => by
    cases x with
    | nil =>
      simp only [List.nil_append, List.cons_append, List.cons.injEq] at heq
      exact Or.inr ⟨a', c5, b, heq.2, hc5⟩
    | cons d x' =>
      simp only [List.cons_append, List.cons.injEq] at heq
      rcases httpAdj_append_space a' x' y c5 b hc5 heq.2 with h1 | h2
      · exact Or.inl (httpAdj_cons_intro d x' h1)
      · exact Or.inr h2

theorem joinSp_data_cons (s s2 : String) (rest : List String) :
    (joinSp (s :: s2 :: rest)).data
      = s.data ++ ' ' :: (joinSp (s2 :: rest)).data := by
  show (s ++ " " ++ joinSp (s2 :: rest)).data = _
  rw [String.data_append, String.data_append]
  simp

theorem httpAdj_joinSp : ∀ (sents : List String),
    HttpAdj (joinSp sents).data → ∃ s ∈ sents, HttpAdj s.data
  | [] => by
    intro h
    have he : (joinSp []).data = [] := rfl
    rw [he] at h
    exact absurd h httpAdj_nil
  | [s] => fun h => ⟨s, List.mem_cons_self s [], h⟩
  | s :: s2 :: rest => by
    intro h
    rw [joinSp_data_cons] at h
    obtain ⟨a, c5, b, heq, hc5⟩ := h
    rcases httpAdj_append_space a s.data (joinSp (s2 :: rest)).data c5 b hc5
        heq with h1 | h2
    · exact ⟨s, List.mem_cons_self s _, h1⟩
    · obtain ⟨t, ht, h3⟩ := httpAdj_joinSp (s2 :: rest) h2
      exact ⟨t, List.mem_cons_of_mem s ht, h3⟩

theorem infixOf_pyStrip (l : List Char) : InfixOf (pyStrip l) l := by
  have key : l.dropWhile pySpace
      = pyStrip l
        ++ ((l.dropWhile pySpace).reverse.takeWhile pySpace).reverse := by
    calc l.dropWhile pySpace
        = ((l.dropWhile pySpace).reverse).reverse :=
          (List.reverse_reverse _).symm
      _ = (((l.dropWhile pySpace).reverse.takeWhile pySpace)
            ++ ((l.dropWhile pySpace).reverse.dropWhile pySpace)).reverse := by
          rw [@List.takeWhile_append_dropWhile _ pySpace
            (l.dropWhile pySpace).reverse]
      _ = ((l.dropWhile pySpace).reverse.dropWhile pySpace).reverse
            ++ ((l.dropWhile pySpace).reverse.takeWhile pySpace).reverse := by
          rw [List.reverse_append]
  refine ⟨l.takeWhile pySpace,
    ((l.dropWhile pySpace).reverse.takeWhile pySpace).reverse, ?_⟩
  calc l = l.takeWhile pySpace ++ l.dropWhile pySpace :=
        (@List.takeWhile_append_dropWhile _ pySpace l).symm
    _ = l.takeWhile pySpace ++ (pyStrip l
          ++ ((l.dropWhile pySpace).reverse.takeWhile pySpace).reverse) := by
        rw [← key]
    _ = l.takeWhile pySpace ++ pyStrip l
          ++ ((l.dropWhile pySpace).reverse.takeWhile pySpace).reverse := by
        rw [List.append_assoc]

theorem infix_subset (p l : List Char) (h : InfixOf p l) : p ⊆ l := by
  obtain ⟨a, b, rfl⟩ := h
  intro c hc
  simp only [List.mem_append]
  exact Or.inl (Or.inr hc)

theorem pyStrip_subset (l : List Char) (c : Char) (h : c ∈ pyStrip l) :
    c ∈ l :=
  infix_subset _ _ (infixOf_pyStrip l) h

theorem subTokenPatAux_subset (m : Char) : ∀ (fuel : Nat) (l : List Char),
    subTokenPatAux m fuel l ⊆ l
  | 0, l => fun _ hc => hc
  | _ + 1, [] => by simp [subTokenPatAux]
  | fuel + 1, c :: rest => by
    intro d hd
    simp only [subTokenPatAux] at hd
    split at hd
    · split at hd
      · exact List.mem_cons_of_mem c
          (List.drop_subset _ rest (subTokenPatAux_subset m fuel _ hd))
      · rcases List.mem_cons.mp hd with rfl | hd2
        · exact List.mem_cons_self _ _
        · exact List.mem_cons_of_mem c (subTokenPatAux_subset m fuel rest hd2)
    · rcases List.mem_cons.mp hd with rfl | hd2
      · exact List.mem_cons_self _ _
      · exact List.mem_cons_of_mem c (subTokenPatAux_subset m fuel rest hd2)

theorem subUrlAux_subset : ∀ (fuel : Nat) (l : List Char),
    subUrlAux fuel l ⊆ l
  | 0, l => fun _ hc => hc
  | _ + 1, [] => by simp [subUrlAux]
  | fuel + 1, c :: rest => by
    intro d hd
    simp only [subUrlAux] at hd
    split at hd
    · split at hd
      · rcases List.mem_cons.mp hd with rfl | hd2
        · exact List.mem_cons_self _ _
        · exact List.mem_cons_of_mem c (subUrlAux_subset fuel rest hd2)
      · exact List.drop_subset _ (c :: rest)
          (List.drop_subset _ ((c :: rest).drop 4)
            (subUrlAux_subset fuel _ hd))
    · rcases List.mem_cons.mp hd with rfl | hd2
      · exact List.mem_cons_self _ _
      · exact List.mem_cons_of_mem c (subUrlAux_subset fuel rest hd2)

theorem collapseWsAux_mem : ∀ (fuel : Nat) (l : List Char) (c : Char),
    c ∈ collapseWsAux fuel l → c ∈ l ∨ c = ' '
  | 0, l, c => fun hc => Or.inl hc
  | _ + 1, [], c => by simp [collapseWsAux]
  | fuel + 1, d :: rest, c => by
    intro hc
    simp only [collapseWsAux] at hc
    split at hc
    · rcases List.mem_cons.mp hc with rfl | hc2
      · exact Or.inr rfl
      · rcases collapseWsAux_mem fuel _ c hc2 with h1 | h2
        · exact Or.inl (List.mem_cons_of_mem d
            (List.Sublist.subset (List.dropWhile_sublist _) h1))
        · exact Or.inr h2
    · rcases List.mem_cons.mp hc with rfl | hc2
      · exact Or.inl (List.mem_cons_self _ _)
      · rcases collapseWsAux_mem fuel rest c hc2 with h1 | h2
        · exact Or.inl (List.mem_cons_of_mem d h1)
        · exact Or.inr h2

theorem preClean_char (l : List Char) (c : Char) (h : c ∈ preClean l) :
    c = ' ' ∨ (c.isDigit = false ∧ c ≠ '"') := by
  unfold preClean collapseWs subUrl subTokenPat at h
  rcases collapseWsAux_mem _ _ c h with h1 | h2
  · have h3 := subTokenPatAux_subset '#' _ _
      (subTokenPatAux_subset '@' _ _ (subUrlAux_subset _ _ h1))
    rw [removeDigitsQuotes] at h3
    obtain ⟨-, hp⟩ := List.mem_filter.mp h3
    refine Or.inr ⟨?_, ?_⟩ <;> revert hp <;>
      cases hdig : c.isDigit <;> by_cases hq : c = '"' <;> simp [hdig, hq]
  · exact Or.inl h2

theorem mem_joinSp_data : ∀ (sents : List String) (c : Char),
    c ∈ (joinSp sents).data → c = ' ' ∨ ∃ s ∈ sents, c ∈ s.data
  | [], c => by
    intro hc
    have he : (joinSp []).data = [] := rfl
    rw [he] at hc
    simp at hc
  | [s], c => fun hc => Or.inr ⟨s, List.mem_cons_self s [], hc⟩
  | s :: s2 :: rest, c => by
    intro hc
    rw [joinSp_data_cons] at hc
    rcases List.mem_append.mp hc with h1 | h2
    · exact Or.inr ⟨s, List.mem_cons_self s _, h1⟩
    · rcases List.mem_cons.mp h2 with rfl | h3
      · exact Or.inl rfl
      · rcases mem_joinSp_data (s2 :: rest) c h3 with h4 | ⟨t, ht, h5⟩
        · exact Or.inl h4
        · exact Or.inr ⟨t, List.mem_cons_of_mem s ht, h5⟩

theorem dedupLoop_nil_eq (l : List String) :
    dedupLoop [] l = firstOccur (l.map pyStripStr) := by
  rw [dedupLoop_eq]
  simp

theorem mem_dedupLoop (l : List String) (x : String)
    (h : x ∈ dedupLoop [] l) : ∃ s ∈ l, x = pyStripStr s := by
  rw [dedupLoop_nil_eq, firstOccur_mem] at h
  obtain ⟨s, hs, rfl⟩ := List.mem_map.mp h
  exact ⟨s, hs, rfl⟩

/-- The structural property of the external `nltk` sentence splitter on
which the cleanliness argument relies: every returned sentence is a
contiguous substring of the input text. -/
def SplitterContiguous (split : String → String → List String) : Prop :=
  ∀ t lng s, s ∈ split t lng → InfixOf s.data t.data

/-- Claim C8 (amended): for every input text and language, the output of
`clean_text` contains no digit and no double-quote character, and — when
the external sentence splitter returns contiguous substrings of its input
— no substring matching the URL pattern `https?\S+`; the hashtag and
mention removals however use the patterns `#[\S]+\b` and `@[\S]+\b`, which
require a terminal word boundary, so hashtag/mention tokens made wholly of
non-word characters survive (`"#!!!"` cleans to `"#!!!"`). -/
theorem spec_c8_no_pattern_residue (split : String → String → List String)
    (hsp : SplitterContiguous split) (text lang : String) :
    (∀ c ∈ (clean_text split text lang).data, c.isDigit = false ∧ c ≠ '"')
    ∧ ¬ HttpAdj (clean_text split text lang).data
    ∧ clean_text (fun s _ => [s]) "#!!!" "en" = "#!!!" := by
  have hdata : (clean_text split text lang).data
      = pyStrip (joinSp (dedupLoop []
          (split (String.mk (preClean text.data)) (langLookup lang)))).data :=
    rfl
  refine ⟨?_, ?_, by decide⟩
  · intro c hc
    rw [hdata] at hc
    have hc2 := pyStrip_subset _ c hc
    rcases mem_joinSp_data _ c hc2 with rfl | ⟨s, hsent, hcs⟩
    · exact ⟨by decide, by decide⟩
    · obtain ⟨s0, hs0, rfl⟩ := mem_dedupLoop _ s hsent
      have hc3 : c ∈ s0.data := pyStrip_subset _ c hcs
      have hc4 : c ∈ preClean text.data :=
        infix_subset _ _ (hsp _ _ s0 hs0) hc3
      rcases preClean_char _ c hc4 with rfl | hd
      · exact ⟨by decide, by decide⟩
      · exact hd
  · intro h
    rw [hdata] at h
    have h2 := httpAdj_mono _ _ (infixOf_pyStrip _) h
    obtain ⟨s, hsent, h3⟩ := httpAdj_joinSp _ h2
    obtain ⟨s0, hs0, rfl⟩ := mem_dedupLoop _ s hsent
    have h4 : HttpAdj s0.data := httpAdj_mono _ _ (infixOf_pyStrip _) h3
    have h5 : HttpAdj (preClean text.data) :=
      httpAdj_mono _ _ (hsp _ _ s0 hs0) h4
    exact not_httpAdj_subUrl _ (httpAdj_collapseWs _ h5)

theorem spec_c8_no_pattern_residue_witness :
    SplitterContiguous (fun s _ => [s])
    ∧ ((∀ c ∈ (clean_text (fun s _ => [s]) "see http://a.b 42" "en").data,
          c.isDigit = false ∧ c ≠ '"')
      ∧ ¬ HttpAdj (clean_text (fun s _ => [s]) "see http://a.b 42" "en").data
      ∧ clean_text (fun s _ => [s]) "#!!!" "en" = "#!!!") := by
  have hs : SplitterContiguous (fun s _ => [s]) := by
    intro t lng s hmem
    simp only [List.mem_singleton] at hmem
    subst hmem
    exact ⟨[], [], by simp⟩
  exact ⟨hs, spec_c8_no_pattern_residue (fun s _ => [s]) hs
    "see http://a.b 42" "en"⟩
